import Mathlib

/-!
# Verification of the typematter/pipeline composition engine

A shallow embedding of the repository's core: the `Result` discriminated
union (`src/src/types/result.ts`), the `success` and `failure` constructors
(`src/src/lib/success.ts`, `src/src/lib/failure.ts`), the `resolve`
boundary helper (`src/src/lib/resolve.ts`), and the two `compose` engines
(the array-plus-options engine with `structuredClone` / `Object.assign`
semantics from `src/unnamed/part_001`, and the variadic engine from
`src/src/lib/compose.ts`).

JavaScript objects are modelled with an explicit heap: an address-indexed
store of field lists.  Reference identity is address identity, in-place
mutation is a store update, and `structuredClone` is a recursive copy into
fresh addresses.  Stages are arbitrary functions from (heap, context value)
to (heap, outcome), where an outcome is either a returned `Result` or a
thrown value.
-/

set_option autoImplicit false

namespace Pipeline

/-- Heap addresses: object references are addresses into the store. -/
abbrev Addr := Nat

/-- A JavaScript value as passed through the pipeline: either a primitive
(abstracted by its string representation) or a reference to a heap object. -/
inductive JVal : Type where
  | prim : String → JVal
  | ref : Addr → JVal
  deriving DecidableEq, Repr

/-- A JavaScript object: an ordered list of string-keyed fields. -/
abbrev Obj := List (String × JVal)

/-- The object store.  `objs` maps addresses to objects (first match wins);
`next` is the next fresh address. -/
structure Heap : Type where
  objs : List (Addr × Obj)
  next : Addr
  deriving DecidableEq, Repr

/-- First-match association lookup over the store. -/
def findObj : List (Addr × Obj) → Addr → Option Obj
  | [], _ => none
  | (b, o) :: rest, a => if b = a then some o else findObj rest a

/-- First-match replacement of the object stored at an address (no-op when
the address is absent). -/
def setObjs : List (Addr × Obj) → Addr → Obj → List (Addr × Obj)
  | [], _, _ => []
  | (b, o') :: rest, a, o => if b = a then (a, o) :: rest else (b, o') :: setObjs rest a o

/-- Dereference an address. -/
def Heap.get (h : Heap) (a : Addr) : Option Obj := findObj h.objs a

/-- Overwrite the object stored at an address (in-place mutation). -/
def Heap.set (h : Heap) (a : Addr) (o : Obj) : Heap := ⟨setObjs h.objs a o, h.next⟩

/-- Allocate a new object at a fresh address. -/
def Heap.alloc (h : Heap) (o : Obj) : Heap × Addr :=
  (⟨(h.next, o) :: h.objs, h.next + 1⟩, h.next)

/-- Well-formedness: every stored address is below the fresh-address bound. -/
def Heap.WFb (h : Heap) : Bool := h.objs.all fun p => p.1 < h.next

/-- Heap extension: the fresh bound only grows and the store is unchanged
below the old bound (allocation-only growth). -/
def Heap.Extends (h h' : Heap) : Prop :=
  h.next ≤ h'.next ∧ ∀ a, a < h.next → h'.get a = h.get a

/-- First-match lookup of a field inside an object. -/
def lookupField : Obj → String → Option JVal
  | [], _ => none
  | (k', v') :: rest, k => if k' = k then some v' else lookupField rest k

/-- JavaScript property assignment on an object value: overwrite the first
occurrence of the key, or append the key when absent. -/
def setField : Obj → String → JVal → Obj
  | [], k, v => [(k, v)]
  | (k', v') :: rest, k, v => if k' = k then (k, v) :: rest else (k', v') :: setField rest k v

/-! ## The normalized error kind and arbitrary error values -/

/-- The `PipelineError` class from `src/src/lib/failure.ts`: an `Error`
subclass whose constructor stores the message and sets `name` to
`"PipelineError"`.  `extra` stands for any subclass-specific data an
instance may carry beyond the base fields. -/
structure PipelineError : Type where
  message : String
  name : String
  extra : List (String × String)
  deriving DecidableEq, Repr

/-- Models `new PipelineError(message)`: the constructor sets the name field. -/
def PipelineError.make (message : String) : PipelineError :=
  ⟨message, "PipelineError", []⟩

/-- An arbitrary JavaScript value observed by a catch handler or carried in
a failure `Result`, classified by the capability probes `failure` uses:
a `PipelineError` instance, some other `Error` instance (abstracted by its
message), or a non-`Error` value (abstracted by its string conversion). -/
inductive ErrVal : Type where
  | pipe : PipelineError → ErrVal
  | std : String → ErrVal
  | raw : String → ErrVal
  deriving DecidableEq, Repr

/-- The probe `e instanceof PipelineError`. -/
def instanceofPipelineError : ErrVal → Bool
  | .pipe _ => true
  | _ => false

/-- The probe `e instanceof Error` (`PipelineError` extends `Error`). -/
def instanceofError : ErrVal → Bool
  | .pipe _ => true
  | .std _ => true
  | .raw _ => false

/-- The `message` property of an `Error` instance. -/
def messageOf : ErrVal → String
  | .pipe p => p.message
  | .std m => m
  | .raw _ => ""

/-- Models `String(e)`: standard string conversion (`Error.prototype.toString`
renders `name: message`; non-errors carry their own string form). -/
def stringOf : ErrVal → String
  | .pipe p => p.name ++ ": " ++ p.message
  | .std m => "Error: " ++ m
  | .raw s => s

/-! ## The Result representation, constructors, and resolve -/

/-- The type `Result<T, E>` from `src/src/types/result.ts`: the `ok` discriminant
with either a `value` or an `error`. -/
inductive Result (T : Type) (E : Type) : Type where
  | ok (value : T) : Result T E
  | err (error : E) : Result T E
  deriving DecidableEq, Repr

/-- The `ok` discriminant field of a `Result`. -/
def Result.okFlag {T E : Type} : Result T E → Bool
  | .ok _ => true
  | .err _ => false

/-- The `error` field of a `Result` (present exactly on the failure shape). -/
def Result.errorOf {T E : Type} : Result T E → Option E
  | .ok _ => none
  | .err e => some e

/-- The `value` field of a `Result` (present exactly on the success shape). -/
def Result.valueOf {T E : Type} : Result T E → Option T
  | .ok v => some v
  | .err _ => none

/-- The constructor `success` from `src/src/lib/success.ts`: wrap any value, no validation. -/
def success {T E : Type} (value : T) : Result T E := .ok value

/-- The constructor `failure` from `src/src/lib/failure.ts`:
`error instanceof PipelineError ? error :
 new PipelineError(error instanceof Error ? error.message : String(error))`,
wrapped as `{ ok: false, error: ... }`.  Total by construction. -/
def failure {T : Type} (error : ErrVal) : Result T ErrVal :=
  .err
    (if instanceofPipelineError error then error
     else .pipe (PipelineError.make
        (if instanceofError error then messageOf error else stringOf error)))

/-- The helper `resolve` from `src/src/lib/resolve.ts`: return the value on the success
shape, throw the carried error verbatim on the failure shape.  Throwing is
modelled by `Except.error`. -/
def resolve {T E : Type} (result : Result T E) : Except E T :=
  match result with
  | .ok value => .ok value
  | .err error => .error error

/-! ## Pure views of heap values, reachability, and `structuredClone` -/

/-- The pure tree shape of a heap value, used to state that cloning is
structure-preserving. -/
inductive Tree : Type where
  | prim : String → Tree
  | obj : List (String × Tree) → Tree

/-- Map a value-viewing function across an object's fields, propagating
failure. -/
def viewFieldsAux (vv : JVal → Option Tree) : Obj → Option (List (String × Tree))
  | [] => some []
  | (k, v) :: rest =>
    match vv v with
    | none => none
    | some t =>
      match viewFieldsAux vv rest with
      | none => none
      | some ts => some ((k, t) :: ts)

/-- Unfold a heap value into its pure tree, up to a dereference depth. -/
def viewVal : Nat → Heap → JVal → Option Tree
  | _, _, .prim s => some (.prim s)
  | 0, _, .ref _ => none
  | g + 1, h, .ref a =>
    match h.get a with
    | none => none
    | some o =>
      match viewFieldsAux (viewVal g h) o with
      | none => none
      | some ts => some (.obj ts)

/-- Address reachability from a value: the value's own reference, or any
address reachable through a stored field. -/
inductive ValReach (h : Heap) : JVal → Addr → Prop where
  | here (a : Addr) : ValReach h (.ref a) a
  | step (a : Addr) (o : Obj) (k : String) (v : JVal) (b : Addr) :
      h.get a = some o → (k, v) ∈ o → ValReach h v b → ValReach h (.ref a) b

/-- Clone each field of an object with a given value-cloning function,
threading the heap. -/
def cloneFieldsAux (cv : Heap → JVal → Option (Heap × JVal)) :
    Heap → Obj → Option (Heap × Obj)
  | h, [] => some (h, [])
  | h, (k, v) :: rest =>
    match cv h v with
    | none => none
    | some (h1, v') =>
      match cloneFieldsAux cv h1 rest with
      | none => none
      | some (h2, rest') => some (h2, (k, v') :: rest')

/-- Models `structuredClone`: recursively copy the object graph of a value into
fresh addresses.  The fuel bounds dereference depth; exhaustion (`none`)
models the clone step failing (cyclic beyond the bound, dangling, or
non-cloneable data). -/
def cloneVal : Nat → Heap → JVal → Option (Heap × JVal)
  | _, h, .prim s => some (h, .prim s)
  | 0, _, .ref _ => none
  | fuel + 1, h, .ref a =>
    match h.get a with
    | none => none
    | some o =>
      match cloneFieldsAux (cloneVal fuel) h o with
      | none => none
      | some (h1, o') => some ((h1.alloc o').1, .ref (h1.alloc o').2)

/-! ## The compose engine of `src/unnamed/part_001` -/

/-- The settled outcome of awaiting one stage invocation: a returned
`Result`, or a thrown / rejected value. -/
inductive StageOut : Type where
  | ret : Result JVal ErrVal → StageOut
  | threw : ErrVal → StageOut

/-- A pipeline stage as the engine observes it: given the current heap and
context value, it produces a new heap and a settled outcome. -/
abbrev Stage : Type := Heap → JVal → Heap × StageOut

/-- The own enumerable properties `Object.assign` reads off a source value:
an object's fields, nothing for primitives. -/
def sourceFields (h : Heap) : JVal → Obj
  | .prim _ => []
  | .ref b => (h.get b).getD []

/-- Left-to-right shallow merge of source fields into target fields: each
source key overwrites or is appended. -/
def mergeFields (target source : Obj) : Obj :=
  source.foldl (fun t kv => setField t kv.1 kv.2) target

/-- Models `Object.assign(target, source)` with an object target: merge the source's
own fields into the object at the target's address, in place.  `none` when
the target is not a reference to a live object (the case where the real
`Object.assign` would throw or fall outside the stage contract). -/
def objAssign (h : Heap) (target source : JVal) : Option Heap :=
  match target with
  | .prim _ => none
  | .ref a =>
    match h.get a with
    | none => none
    | some o => some (h.set a (mergeFields o (sourceFields h source)))

/-- The options record `ComposeOptions` from `src/unnamed/part_001`: `mutate?: true`, absent
meaning `false`. -/
structure ComposeOptions : Type where
  mutate : Bool := false

/-- The stage loop of `compose` (`src/unnamed/part_001`): run the stages in
order over the current context.  On a success result, either merge in place
(`Object.assign`, mutate mode) or replace the current context wholesale; on
a failure result, return it unchanged; on a throw, return `failure` of the
thrown value.  `none` marks the one unmodelled corner: `Object.assign` onto
a non-object target. -/
def composeLoop (mutate : Bool) : List Stage → Heap → JVal → Option (Heap × Result JVal ErrVal)
  | [], h, cur => some (h, success cur)
  | stage :: rest, h, cur =>
    match stage h cur with
    | (h', .ret (.ok v)) =>
      if mutate then
        match objAssign h' cur v with
        | some h'' => composeLoop mutate rest h'' cur
        | none => none
      else composeLoop mutate rest h' v
    | (h', .ret (.err e)) => some (h', .err e)
    | (h', .threw e) => some (h', failure e)

/-- The engine `compose` from `src/unnamed/part_001`: establish the working context
(the exact input reference under `mutate`, a `structuredClone` otherwise),
then run the stage loop.  `none` from the clone step models the documented
deep-duplication failure. -/
def compose (stages : List Stage) (opts : ComposeOptions) (fuel : Nat)
    (h : Heap) (context : JVal) : Option (Heap × Result JVal ErrVal) :=
  if opts.mutate then composeLoop true stages h context
  else
    match cloneVal fuel h context with
    | none => none
    | some (h0, cur0) => composeLoop false stages h0 cur0

/-! ## The variadic compose engine of `src/src/lib/compose.ts` -/

/-- The context type `PipelineContext` for the variadic engine, which neither clones nor
mutates: a plain record of string keys to values. -/
abbrev PCtx := List (String × JVal)

/-- A settled stage outcome for the variadic engine. -/
inductive StageOutV : Type where
  | ret : Result PCtx ErrVal → StageOutV
  | threw : ErrVal → StageOutV

/-- A stage for the variadic engine: pure context in, settled outcome out. -/
abbrev StageV : Type := PCtx → StageOutV

/-- The stage loop of the variadic `compose` (`src/src/lib/compose.ts`):
replace the current context with each success value, return a failure result
unchanged, normalize a thrown value via `failure`. -/
def composeLoopV : List StageV → PCtx → Result PCtx ErrVal
  | [], cur => success cur
  | stage :: rest, cur =>
    match stage cur with
    | .ret (.ok v) => composeLoopV rest v
    | .ret (.err e) => .err e
    | .threw e => failure e

/-- The variadic `compose` from `src/src/lib/compose.ts`:
`async (context = {}) => ...` — an omitted or `undefined` context argument
(modelled by `Option.none`) defaults to the empty object. -/
def composeVariadic (stages : List StageV) (context : Option PCtx) : Result PCtx ErrVal :=
  composeLoopV stages (context.getD [])

/-! ## Frame conditions on stages

A JavaScript stage can only touch state it can reach: the objects reachable
from the context value it is handed, and objects it allocates itself.  These
predicates state that discipline for the heap model. -/

/-- The stage only grows the fresh-address bound, only writes addresses
reachable from its input (or fresh ones), and a returned success value only
reaches input-reachable or fresh addresses. -/
def StageFrame (s : Stage) : Prop :=
  ∀ h c h' out, s h c = (h', out) →
    h.next ≤ h'.next ∧
    (∀ a, a < h.next → ¬ ValReach h c a → h'.get a = h.get a) ∧
    (∀ v, out = StageOut.ret (Result.ok v) → ∀ b, ValReach h' v b → ValReach h c b ∨ h.next ≤ b)

/-- The stage never deallocates: every live address stays live. -/
def StagePreserves (s : Stage) : Prop :=
  ∀ h c h' out, s h c = (h', out) →
    ∀ b, (h.get b).isSome = true → (h'.get b).isSome = true

/-- What a successful `cloneVal` run guarantees: the heap only grows by
fresh allocations, well-formedness is preserved, the clone reaches only
fresh live addresses (so it is disjoint from every pre-existing object),
and the clone denotes the same pure tree as the original. -/
def CloneValOK (h : Heap) (v : JVal) (h' : Heap) (v' : JVal) : Prop :=
  h.Extends h' ∧
  (h.WFb = true → h'.WFb = true) ∧
  (h.WFb = true → ∀ b, ValReach h' v' b →
    h.next ≤ b ∧ b < h'.next ∧ (h'.get b).isSome = true) ∧
  (h.WFb = true → ∀ g t, viewVal g h v = some t → viewVal g h' v' = some t)

/-- The field-list analogue of `CloneValOK` for `cloneFieldsAux`. -/
def CloneFieldsOK (h : Heap) (o : Obj) (h' : Heap) (o' : Obj) : Prop :=
  h.Extends h' ∧
  (h.WFb = true → h'.WFb = true) ∧
  (h.WFb = true → ∀ k w, (k, w) ∈ o' → ∀ b, ValReach h' w b →
    h.next ≤ b ∧ b < h'.next ∧ (h'.get b).isSome = true) ∧
  (h.WFb = true → ∀ g ts, viewFieldsAux (viewVal g h) o = some ts →
    viewFieldsAux (viewVal g h') o' = some ts)

/-! ## Concrete data used to exercise the theorems -/

/-- A one-object heap: address 0 holds the empty object. -/
def heap0 : Heap := ⟨[(0, [])], 1⟩

/-- A context value: the reference to the object at address 0. -/
def ctx0 : JVal := .ref 0

/-- A stage that returns a failure `Result` carrying a non-normalized error. -/
def stageFailE : Stage := fun h _ => (h, .ret (.err (.raw "E")))

/-- A stage that throws an `Error` with message `"boom"`. -/
def stageThrowBoom : Stage := fun h _ => (h, .threw (.std "boom"))

/-- A stage that succeeds with a freshly allocated object `{x: "1"}`. -/
def stageAddX : Stage := fun h _ =>
  ((h.alloc [("x", .prim "1")]).1, .ret (.ok (.ref (h.alloc [("x", .prim "1")]).2)))

/-- The heap after `stageAddX` runs on `heap0`. -/
def heap1x : Heap := ⟨[(1, [("x", .prim "1")]), (0, [])], 2⟩

/-- The heap after `Object.assign` merges `{x: "1"}` into the object at
address 0 of `heap1x`. -/
def heap2x : Heap := ⟨[(1, [("x", .prim "1")]), (0, [("x", .prim "1")])], 2⟩

/-- The heap after `structuredClone` copies the object at address 0 of
`heap0` to the fresh address 1. -/
def heap1 : Heap := ⟨[(1, []), (0, [])], 2⟩

/-! # Theorems -/

/-! ## C1: `failure` totally normalizes every error into a `PipelineError` -/

/-- C1: for every input `e`, `failure(e)` returns a `Result` whose `ok`
discriminant is `false` and whose carried error is an instance of
`PipelineError`; a `PipelineError` input is passed through itself with no
double-wrapping; a standard `Error` input yields a `PipelineError` carrying
its message; any other input yields a `PipelineError` carrying its string
conversion.  `failure` is a total Lean function, so it throws for no input. -/
theorem failure_normalizes (p : PipelineError) (m s : String) :
    (∀ e : ErrVal, (failure (T := JVal) e).okFlag = false ∧
      ∃ x, (failure (T := JVal) e).errorOf = some x ∧ instanceofPipelineError x = true) ∧
    (failure (T := JVal) (.pipe p)).errorOf = some (.pipe p) ∧
    (failure (T := JVal) (.std m)).errorOf = some (.pipe (PipelineError.make m)) ∧
    (failure (T := JVal) (.raw s)).errorOf =
      some (.pipe (PipelineError.make (stringOf (.raw s)))) := by
  refine ⟨fun e => ?_, rfl, rfl, rfl⟩
  cases e <;> simp [failure, Result.okFlag, Result.errorOf, instanceofPipelineError,
    instanceofError, messageOf, stringOf]

/-! ## C7: `resolve` inverts the `Result` shapes and throws verbatim -/

/-- C7: `resolve(success(v))` returns `v` itself; `resolve` of any failure
`Result` throws exactly the carried error with no re-wrapping, so in
particular `resolve(failure(e))` throws the `PipelineError` instance that
`failure(e)` carries. -/
theorem resolve_inverts (T E : Type) (v : T) (x : E) (e : ErrVal) :
    resolve (success (T := T) (E := E) v) = Except.ok v ∧
    resolve (Result.err (T := T) (E := E) x) = Except.error x ∧
    ∃ c, failure (T := T) e = Result.err c ∧
      resolve (failure (T := T) e) = Except.error c :=
  ⟨rfl, rfl, _, rfl, rfl⟩

/-! ## C10: the variadic compose defaults an absent context to `{}` -/

/-- C10: the variadic `compose` gives its context parameter the default
value `{}`: invoking the composed pipeline with no (or an `undefined`)
argument runs the stage loop over the empty object, identically to passing
`{}` explicitly, and an empty pipeline so invoked returns `success({})`
rather than failing. -/
theorem composeVariadic_defaults_to_empty (stages : List StageV) :
    composeVariadic stages none = composeLoopV stages [] ∧
    composeVariadic stages none = composeVariadic stages (some []) ∧
    composeVariadic [] none = success [] :=
  ⟨rfl, rfl, rfl⟩

/-! ## C4: a stage's failure `Result` is returned verbatim and short-circuits -/

/-- C4: in either mode, when the stage the loop has reached returns a
failure `Result`, the composed pipeline returns exactly that `Result` —
the error `e` untouched, whatever kind the stage chose — and the remaining
stages (`rest`, arbitrary and unused) are never invoked. -/
theorem stage_failure_short_circuits (m : Bool) (s : Stage) (rest : List Stage)
    (h h' : Heap) (cur : JVal) (e : ErrVal)
    (hs : s h cur = (h', StageOut.ret (Result.err e))) :
    composeLoop m (s :: rest) h cur = some (h', Result.err e) := by
  simp [composeLoop, hs]

/-- Exercises C4: a pipeline whose first stage returns a failure carrying a
raw (non-normalized) error returns that failure unchanged, skipping the
remaining stage. -/
theorem stage_failure_short_circuits_witness :
    composeLoop false (stageFailE :: [stageThrowBoom]) heap0 ctx0 =
      some (heap0, Result.err (ErrVal.raw "E")) :=
  stage_failure_short_circuits false stageFailE [stageThrowBoom] heap0 heap0 ctx0
    (ErrVal.raw "E") rfl

/-! ## C5: a thrown value is normalized via `failure` and short-circuits -/

/-- C5: in either mode, when the stage the loop has reached throws (or
rejects with) a value `e`, the composed pipeline immediately returns
`failure e` — a failure `Result` carrying a `PipelineError` whose message is
the thrown error's message (its string conversion for non-errors) — and the
remaining stages are never invoked. -/
theorem stage_throw_normalized (m : Bool) (s : Stage) (rest : List Stage)
    (h h' : Heap) (cur : JVal) (e : ErrVal)
    (hs : s h cur = (h', StageOut.threw e)) :
    composeLoop m (s :: rest) h cur = some (h', failure e) ∧
    (failure (T := JVal) e).okFlag = false ∧
    ∃ p, (failure (T := JVal) e).errorOf = some (.pipe p) ∧
      p.message = (if instanceofError e then messageOf e else stringOf e) := by
  refine ⟨by simp [composeLoop, hs], ?_, ?_⟩
  · cases e <;> rfl
  · cases e <;> simp [failure, Result.errorOf, instanceofPipelineError,
      instanceofError, messageOf, stringOf, PipelineError.make]

/-- Exercises C5: a stage throwing an `Error` with message `"boom"` makes the
pipeline return a failure whose normalized error has message `"boom"`,
skipping the remaining stage. -/
theorem stage_throw_normalized_witness :
    composeLoop true (stageThrowBoom :: [stageFailE]) heap0 ctx0 =
      some (heap0, failure (ErrVal.std "boom")) ∧
    (failure (T := JVal) (ErrVal.std "boom")).okFlag = false ∧
    ∃ p, (failure (T := JVal) (ErrVal.std "boom")).errorOf = some (.pipe p) ∧
      p.message =
        (if instanceofError (ErrVal.std "boom") then messageOf (ErrVal.std "boom")
         else stringOf (ErrVal.std "boom")) :=
  stage_throw_normalized true stageThrowBoom [stageFailE] heap0 heap0 ctx0
    (ErrVal.std "boom") rfl

/-! ## Store lemmas -/

theorem findObj_mem {l : List (Addr × Obj)} {a : Addr} {o : Obj}
    (hf : findObj l a = some o) : (a, o) ∈ l := by
  induction l with
  | nil => simp [findObj] at hf
  | cons p rest ih =>
    rcases p with ⟨b, o'⟩
    by_cases hba : b = a
    · subst hba
      simp [findObj] at hf
      subst hf
      exact List.mem_cons_self _ _
    · simp [findObj, hba] at hf
      exact List.mem_cons_of_mem _ (ih hf)

theorem Heap.get_some_lt {h : Heap} {a : Addr} {o : Obj}
    (hwf : h.WFb = true) (hget : h.get a = some o) : a < h.next := by
  have hmem := findObj_mem hget
  have := List.all_eq_true.mp hwf ⟨a, o⟩ hmem
  exact of_decide_eq_true this

theorem findObj_setObjs_self {l : List (Addr × Obj)} {a : Addr} (o : Obj)
    (hl : (findObj l a).isSome = true) : findObj (setObjs l a o) a = some o := by
  induction l with
  | nil => simp [findObj] at hl
  | cons p rest ih =>
    rcases p with ⟨b, o'⟩
    by_cases hba : b = a
    · subst hba
      simp [setObjs, findObj]
    · simp [findObj, hba] at hl
      simp [setObjs, findObj, hba, ih hl]

theorem findObj_setObjs_other {l : List (Addr × Obj)} {a c : Addr} (o : Obj)
    (hne : c ≠ a) : findObj (setObjs l a o) c = findObj l c := by
  induction l with
  | nil => simp [setObjs]
  | cons p rest ih =>
    rcases p with ⟨b, o'⟩
    by_cases hba : b = a
    · subst hba
      simp [setObjs, findObj, Ne.symm hne]
    · simp [setObjs, hba, findObj]
      by_cases hbc : b = c <;> simp [hbc, ih]

theorem Heap.get_set_self {h : Heap} {a : Addr} {o0 : Obj} (o : Obj)
    (hget : h.get a = some o0) : (h.set a o).get a = some o := by
  have : (findObj h.objs a).isSome = true := by
    simpa [Heap.get] using congrArg Option.isSome hget
  simpa [Heap.get, Heap.set] using findObj_setObjs_self o this

theorem Heap.get_set_other {h : Heap} {a c : Addr} (o : Obj) (hne : c ≠ a) :
    (h.set a o).get c = h.get c := by
  simpa [Heap.get, Heap.set] using findObj_setObjs_other o hne

theorem findObj_none_of_ge {l : List (Addr × Obj)} {n a : Addr}
    (hall : l.all (fun p => p.1 < n) = true) (ha : n ≤ a) : findObj l a = none := by
  induction l with
  | nil => rfl
  | cons p rest ih =>
    rcases p with ⟨b, o⟩
    simp at hall
    have hb : b < n := hall.1
    have hba : b ≠ a := Nat.ne_of_lt (Nat.lt_of_lt_of_le hb ha)
    simpa [findObj, hba] using ih (List.all_eq_true.mpr (by
      intro x hx
      exact decide_eq_true (hall.2 x.1 x.2 hx)))

/-! ## Heap-extension lemmas -/

theorem Heap.Extends.refl (h : Heap) : h.Extends h :=
  ⟨le_refl _, fun _ _ => Eq.refl _⟩

theorem Heap.Extends.trans {h1 h2 h3 : Heap} (e12 : h1.Extends h2)
    (e23 : h2.Extends h3) : h1.Extends h3 := by
  refine ⟨le_trans e12.1 e23.1, fun a ha => ?_⟩
  rw [e23.2 a (lt_of_lt_of_le ha e12.1), e12.2 a ha]

theorem alloc_extends (h : Heap) (o : Obj) : h.Extends (h.alloc o).1 := by
  refine ⟨Nat.le_succ _, fun a ha => ?_⟩
  have : h.next ≠ a := (Nat.ne_of_lt ha).symm
  simp [Heap.alloc, Heap.get, findObj, this]

theorem alloc_get_self (h : Heap) (o : Obj) :
    (h.alloc o).1.get (h.alloc o).2 = some o := by
  simp [Heap.alloc, Heap.get, findObj]

theorem alloc_WFb {h : Heap} (o : Obj) (hwf : h.WFb = true) :
    (h.alloc o).1.WFb = true := by
  simp only [Heap.alloc, Heap.WFb, List.all_cons, Bool.and_eq_true] at *
  constructor
  · exact decide_eq_true (Nat.lt_succ_self _)
  · exact List.all_eq_true.mpr fun x hx => decide_eq_true
      (Nat.lt_succ_of_lt (of_decide_eq_true (List.all_eq_true.mp hwf x hx)))

theorem Heap.Extends.get_some {h h' : Heap} (he : h.Extends h')
    (hwf : h.WFb = true) {a : Addr} {o : Obj} (hget : h.get a = some o) :
    h'.get a = some o := by
  rw [he.2 a (Heap.get_some_lt hwf hget)]
  exact hget

/-! ## View lemmas -/

theorem viewFieldsAux_mono {vv vv' : JVal → Option Tree}
    (H : ∀ v t, vv v = some t → vv' v = some t) :
    ∀ {o : Obj} {ts : List (String × Tree)},
      viewFieldsAux vv o = some ts → viewFieldsAux vv' o = some ts := by
  intro o
  induction o with
  | nil => intro ts hts; simpa [viewFieldsAux] using hts
  | cons kv rest ih =>
    intro ts hts
    rcases kv with ⟨k, v⟩
    simp only [viewFieldsAux] at hts ⊢
    rcases hv : vv v with _ | t0
    · rw [hv] at hts; cases hts
    · rw [hv] at hts
      rcases hrest : viewFieldsAux vv rest with _ | ts0
      · rw [hrest] at hts; cases hts
      · rw [hrest] at hts
        rw [H v t0 hv, ih hrest]
        exact hts

theorem viewVal_extends {h h' : Heap} (he : h.Extends h') (hwf : h.WFb = true) :
    ∀ (g : Nat) (v : JVal) (t : Tree), viewVal g h v = some t → viewVal g h' v = some t := by
  intro g
  induction g with
  | zero =>
    intro v t ht
    cases v with
    | prim s => exact ht
    | ref a => cases ht
  | succ g ih =>
    intro v t ht
    cases v with
    | prim s => exact ht
    | ref a =>
      rw [viewVal] at ht ⊢
      rcases hget : h.get a with _ | o
      · simp only [hget] at ht; cases ht
      · simp only [hget] at ht
        rcases hfs : viewFieldsAux (viewVal g h) o with _ | ts
        · simp only [hfs] at ht; cases ht
        · simp only [hfs] at ht
          simp only [he.get_some hwf hget,
            viewFieldsAux_mono (fun v t => ih v t) hfs]
          exact ht

/-! ## Reachability lemmas -/

theorem ValReach_extends_rev {h h' : Heap} (he : h.Extends h') (hwf : h.WFb = true) :
    ∀ {v : JVal} {b : Addr}, ValReach h' v b →
      (∀ c, ValReach h v c → (h.get c).isSome = true) → ValReach h v b := by
  intro v b hr
  induction hr with
  | here a => intro _; exact .here a
  | step a o k w b hget hmem _ ih =>
    intro hclosed
    have hsome : (h.get a).isSome = true := hclosed a (.here a)
    rcases ho : h.get a with _ | o0
    · rw [ho] at hsome; cases hsome
    · have : h'.get a = some o0 := he.get_some hwf ho
      rw [this] at hget
      injection hget with hoo
      subst hoo
      have hwclosed : ∀ c, ValReach h w c → (h.get c).isSome = true := by
        intro c hc
        exact hclosed c (.step a o0 k w c ho hmem hc)
      exact .step a o0 k w b ho hmem (ih hwclosed)

/-! ## Correctness of `structuredClone` -/

theorem cloneFieldsAux_ok (cv : Heap → JVal → Option (Heap × JVal))
    (Hcv : ∀ h v h' v', cv h v = some (h', v') → CloneValOK h v h' v') :
    ∀ (o : Obj) (h h' : Heap) (o' : Obj),
      cloneFieldsAux cv h o = some (h', o') → CloneFieldsOK h o h' o' := by
  intro o
  induction o with
  | nil =>
    intro h h' o' hcl
    simp only [cloneFieldsAux, Option.some.injEq] at hcl
    injection hcl with hclh hclv
    subst hclh
    subst hclv
    refine ⟨Heap.Extends.refl h, fun hw => hw, ?_, fun _ g ts hts => hts⟩
    intro _ k w hkw
    cases hkw
  | cons kv rest ih =>
    rcases kv with ⟨k, v⟩
    intro h h' o' hcl
    rw [cloneFieldsAux] at hcl
    rcases hv : cv h v with _ | ⟨h1, v'⟩
    · simp only [hv] at hcl
      cases hcl
    · simp only [hv] at hcl
      rcases hrest : cloneFieldsAux cv h1 rest with _ | ⟨h2, rest'⟩
      · simp only [hrest] at hcl
        cases hcl
      · simp only [hrest, Option.some.injEq] at hcl
        injection hcl with hclh hclv
        subst hclh
        subst hclv
        obtain ⟨hvext, hvwf, hvreach, hvview⟩ := Hcv h v h1 v' hv
        obtain ⟨hrext, hrwf, hrreach, hrview⟩ := ih h1 h2 rest' hrest
        refine ⟨hvext.trans hrext, fun hw => hrwf (hvwf hw), ?_, ?_⟩
        · intro hw k0 w hkw b hb
          have hw1 : h1.WFb = true := hvwf hw
          rcases List.mem_cons.mp hkw with heq | hmem
          · have hwv : w = v' := (Prod.mk.injEq .. ▸ heq).2
            subst hwv
            have hclosed : ∀ c, ValReach h1 w c → (h1.get c).isSome = true :=
              fun c hc => (hvreach hw c hc).2.2
            have hb1 : ValReach h1 w b := ValReach_extends_rev hrext hw1 hb hclosed
            obtain ⟨hnb, hbl, hbs⟩ := hvreach hw b hb1
            refine ⟨hnb, lt_of_lt_of_le hbl hrext.1, ?_⟩
            rcases ho : h1.get b with _ | ob
            · rw [ho] at hbs; cases hbs
            · rw [hrext.get_some hw1 ho]; rfl
          · have hres := hrreach hw1 k0 w hmem b hb
            exact ⟨le_trans hvext.1 hres.1, hres.2.1, hres.2.2⟩
        · intro hw g ts hts
          have hw1 : h1.WFb = true := hvwf hw
          rw [viewFieldsAux] at hts
          rcases hvv : viewVal g h v with _ | t0
          · simp only [hvv] at hts
            cases hts
          · simp only [hvv] at hts
            rcases hvr : viewFieldsAux (viewVal g h) rest with _ | ts0
            · simp only [hvr] at hts
              cases hts
            · simp only [hvr, Option.some.injEq] at hts
              subst hts
              have ht0 : viewVal g h1 v' = some t0 := hvview hw g t0 hvv
              have ht0' : viewVal g h2 v' = some t0 :=
                viewVal_extends hrext hw1 g v' t0 ht0
              have hts1 : viewFieldsAux (viewVal g h1) rest = some ts0 :=
                viewFieldsAux_mono (fun x t => viewVal_extends hvext hw g x t) hvr
              have hts2 : viewFieldsAux (viewVal g h2) rest' = some ts0 :=
                hrview hw1 g ts0 hts1
              rw [viewFieldsAux]
              simp only [ht0', hts2]

theorem cloneVal_ok :
    ∀ (fuel : Nat) (h : Heap) (v : JVal) (h' : Heap) (v' : JVal),
      cloneVal fuel h v = some (h', v') → CloneValOK h v h' v' := by
  intro fuel
  induction fuel with
  | zero =>
    intro h v h' v' hcl
    cases v with
    | prim s =>
      simp only [cloneVal, Option.some.injEq] at hcl
      injection hcl with hclh hclv
      subst hclh
      subst hclv
      refine ⟨Heap.Extends.refl h, fun hw => hw, ?_, fun _ g t ht => ht⟩
      intro _ b hb
      cases hb
    | ref a => simp [cloneVal] at hcl
  | succ fuel ih =>
    intro h v h' v' hcl
    cases v with
    | prim s =>
      simp only [cloneVal, Option.some.injEq] at hcl
      injection hcl with hclh hclv
      subst hclh
      subst hclv
      refine ⟨Heap.Extends.refl h, fun hw => hw, ?_, fun _ g t ht => ht⟩
      intro _ b hb
      cases hb
    | ref a =>
      rw [cloneVal] at hcl
      rcases hget : h.get a with _ | o
      · simp only [hget] at hcl
        cases hcl
      · simp only [hget] at hcl
        rcases hcf : cloneFieldsAux (cloneVal fuel) h o with _ | ⟨h1, o'⟩
        · simp only [hcf] at hcl
          cases hcl
        · simp only [hcf, Option.some.injEq] at hcl
          injection hcl with hclh hclv
          subst hclh
          subst hclv
          obtain ⟨hfext, hfwf, hfreach, hfview⟩ :=
            cloneFieldsAux_ok (cloneVal fuel) (ih) o h h1 o' hcf
          refine ⟨hfext.trans (alloc_extends h1 o'),
            fun hw => alloc_WFb o' (hfwf hw), ?_, ?_⟩
          · intro hw b hb
            have hw1 : h1.WFb = true := hfwf hw
            cases hb with
            | here _ =>
              exact ⟨hfext.1, Nat.lt_succ_self _, by rw [alloc_get_self]; rfl⟩
            | step _ o2 k w b hget2 hmem hr =>
              rw [alloc_get_self] at hget2
              injection hget2 with ho2
              subst ho2
              have hclosed : ∀ c, ValReach h1 w c → (h1.get c).isSome = true :=
                fun c hc => (hfreach hw k w hmem c hc).2.2
              have hr1 : ValReach h1 w b :=
                ValReach_extends_rev (alloc_extends h1 o') hw1 hr hclosed
              obtain ⟨hnb, hbl, hbs⟩ := hfreach hw k w hmem b hr1
              refine ⟨hnb, Nat.lt_succ_of_lt hbl, ?_⟩
              rcases ho : h1.get b with _ | ob
              · rw [ho] at hbs; cases hbs
              · rw [(alloc_extends h1 o').get_some hw1 ho]; rfl
          · intro hw g t ht
            cases g with
            | zero => simp [viewVal] at ht
            | succ g =>
              rw [viewVal] at ht ⊢
              simp only [hget] at ht
              rcases hvf : viewFieldsAux (viewVal g h) o with _ | ts
              · simp only [hvf] at ht
                cases ht
              · simp only [hvf, Option.some.injEq] at ht
                subst ht
                have hw1 : h1.WFb = true := hfwf hw
                have hv1 : viewFieldsAux (viewVal g h1) o' = some ts := hfview hw g ts hvf
                have hv2 : viewFieldsAux (viewVal g (h1.alloc o').1) o' = some ts :=
                  viewFieldsAux_mono
                    (fun x t0 => viewVal_extends (alloc_extends h1 o') hw1 g x t0) hv1
                simp only [alloc_get_self, hv2]

/-! ## Unfolding lemmas for the stage loop -/

theorem composeLoop_cons_ok_false (s : Stage) (rest : List Stage)
    (h h' : Heap) (cur v : JVal) (hs : s h cur = (h', .ret (.ok v))) :
    composeLoop false (s :: rest) h cur = composeLoop false rest h' v := by
  simp [composeLoop, hs]

theorem composeLoop_cons_ok_true (s : Stage) (rest : List Stage)
    (h h' h'' : Heap) (cur v : JVal) (hs : s h cur = (h', .ret (.ok v)))
    (hassign : objAssign h' cur v = some h'') :
    composeLoop true (s :: rest) h cur = composeLoop true rest h'' cur := by
  simp [composeLoop, hs, hassign]

theorem composeLoop_cons_ok_true_fail (s : Stage) (rest : List Stage)
    (h h' : Heap) (cur v : JVal) (hs : s h cur = (h', .ret (.ok v)))
    (hassign : objAssign h' cur v = none) :
    composeLoop true (s :: rest) h cur = none := by
  simp [composeLoop, hs, hassign]

theorem composeLoop_cons_err (m : Bool) (s : Stage) (rest : List Stage)
    (h h' : Heap) (cur : JVal) (e : ErrVal)
    (hs : s h cur = (h', .ret (.err e))) :
    composeLoop m (s :: rest) h cur = some (h', .err e) := by
  simp [composeLoop, hs]

theorem composeLoop_cons_threw (m : Bool) (s : Stage) (rest : List Stage)
    (h h' : Heap) (cur : JVal) (e : ErrVal)
    (hs : s h cur = (h', .threw e)) :
    composeLoop m (s :: rest) h cur = some (h', failure e) := by
  simp [composeLoop, hs]

/-! ## Frame property of the default-mode loop -/

theorem composeLoop_frame :
    ∀ (stages : List Stage), (∀ s ∈ stages, StageFrame s) →
      ∀ (h : Heap) (cur : JVal) (hF : Heap) (res : Result JVal ErrVal),
        composeLoop false stages h cur = some (hF, res) →
        ∀ a, a < h.next → ¬ ValReach h cur a → hF.get a = h.get a := by
  intro stages
  induction stages with
  | nil =>
    intro _ h cur hF res hrun a _ _
    simp only [composeLoop, Option.some.injEq] at hrun
    injection hrun with hh _
    rw [← hh]
  | cons s rest ih =>
    intro hframe h cur hF res hrun a ha hnr
    have hfs : StageFrame s := hframe s (List.mem_cons_self s rest)
    have hframe' : ∀ u ∈ rest, StageFrame u :=
      fun u hu => hframe u (List.mem_cons_of_mem s hu)
    rcases hs : s h cur with ⟨h', out⟩
    obtain ⟨hn, hwr, hval⟩ := hfs h cur h' out hs
    cases out with
    | ret r =>
      cases r with
      | ok v =>
        rw [composeLoop_cons_ok_false s rest h h' cur v hs] at hrun
        have ha' : a < h'.next := lt_of_lt_of_le ha hn
        have hnr' : ¬ ValReach h' v a := by
          intro hr
          rcases hval v rfl a hr with hc | hge
          · exact hnr hc
          · exact absurd ha (not_lt.mpr hge)
        rw [ih hframe' h' v hF res hrun a ha' hnr']
        exact hwr a ha hnr
      | err e =>
        rw [composeLoop_cons_err false s rest h h' cur e hs] at hrun
        simp only [Option.some.injEq] at hrun
        injection hrun with hh _
        rw [← hh]
        exact hwr a ha hnr
    | threw e =>
      rw [composeLoop_cons_threw false s rest h h' cur e hs] at hrun
      simp only [Option.some.injEq] at hrun
      injection hrun with hh _
      rw [← hh]
      exact hwr a ha hnr

/-! ## Totality of the loop -/

theorem composeLoop_false_total :
    ∀ (stages : List Stage) (h : Heap) (cur : JVal),
      (composeLoop false stages h cur).isSome = true := by
  intro stages
  induction stages with
  | nil => intro h cur; rfl
  | cons s rest ih =>
    intro h cur
    rcases hs : s h cur with ⟨h', out⟩
    cases out with
    | ret r =>
      cases r with
      | ok v => rw [composeLoop_cons_ok_false s rest h h' cur v hs]; exact ih h' v
      | err e => rw [composeLoop_cons_err false s rest h h' cur e hs]; rfl
    | threw e => rw [composeLoop_cons_threw false s rest h h' cur e hs]; rfl

theorem objAssign_spec (h : Heap) (a : Addr) (o : Obj) (src : JVal)
    (hget : h.get a = some o) :
    objAssign h (.ref a) src = some (h.set a (mergeFields o (sourceFields h src))) := by
  simp [objAssign, hget]

theorem composeLoop_true_total :
    ∀ (stages : List Stage), (∀ s ∈ stages, StagePreserves s) →
      ∀ (h : Heap) (a : Addr), (h.get a).isSome = true →
        (composeLoop true stages h (.ref a)).isSome = true := by
  intro stages
  induction stages with
  | nil => intro _ h a _; rfl
  | cons s rest ih =>
    intro hpres h a hlive
    have hps : StagePreserves s := hpres s (List.mem_cons_self s rest)
    have hpres' : ∀ u ∈ rest, StagePreserves u :=
      fun u hu => hpres u (List.mem_cons_of_mem s hu)
    rcases hs : s h (.ref a) with ⟨h', out⟩
    cases out with
    | ret r =>
      cases r with
      | ok v =>
        have hlive' : (h'.get a).isSome = true := hps h (.ref a) h' _ hs a hlive
        rcases hga : h'.get a with _ | o
        · rw [hga] at hlive'; cases hlive'
        · rw [composeLoop_cons_ok_true s rest h h' _ (.ref a) v hs
            (objAssign_spec h' a o v hga)]
          apply ih hpres'
          rw [Heap.get_set_self _ hga]
          rfl
      | err e => rw [composeLoop_cons_err true s rest h h' _ e hs]; rfl
    | threw e => rw [composeLoop_cons_threw true s rest h h' _ e hs]; rfl

/-! ## The mutate-mode loop keeps the context reference fixed -/

theorem composeLoop_mutate_fixed :
    ∀ (stages : List Stage) (h hF : Heap) (cur v : JVal),
      composeLoop true stages h cur = some (hF, Result.ok v) → v = cur := by
  intro stages
  induction stages with
  | nil =>
    intro h hF cur v hrun
    simp only [composeLoop, success, Option.some.injEq] at hrun
    injection hrun with _ hv
    injection hv with hv
    exact hv.symm
  | cons s rest ih =>
    intro h hF cur v hrun
    rcases hs : s h cur with ⟨h', out⟩
    cases out with
    | ret r =>
      cases r with
      | ok w =>
        rcases hoa : objAssign h' cur w with _ | h''
        · rw [composeLoop_cons_ok_true_fail s rest h h' cur w hs hoa] at hrun
          cases hrun
        · rw [composeLoop_cons_ok_true s rest h h' h'' cur w hs hoa] at hrun
          exact ih h'' hF cur v hrun
      | err e =>
        rw [composeLoop_cons_err true s rest h h' cur e hs] at hrun
        simp at hrun
    | threw e =>
      rw [composeLoop_cons_threw true s rest h h' cur e hs] at hrun
      simp [failure] at hrun

/-! ## Shallow-merge lemmas -/

theorem lookupField_setField_self (o : Obj) (k : String) (v : JVal) :
    lookupField (setField o k v) k = some v := by
  induction o with
  | nil => simp [setField, lookupField]
  | cons kv rest ih =>
    rcases kv with ⟨k', v'⟩
    by_cases hk : k' = k
    · subst hk; simp [setField, lookupField]
    · simp [setField, lookupField, hk, ih]

theorem lookupField_setField_other (o : Obj) (k k' : String) (v : JVal)
    (hne : k ≠ k') : lookupField (setField o k v) k' = lookupField o k' := by
  induction o with
  | nil => simp [setField, lookupField, hne]
  | cons kv rest ih =>
    rcases kv with ⟨k0, v0⟩
    by_cases hk0 : k0 = k
    · subst hk0; simp [setField, lookupField, hne]
    · simp only [setField, if_neg hk0, lookupField]
      by_cases hk0' : k0 = k' <;> simp [hk0', ih]

theorem lookupField_eq_none (s : Obj) (k : String)
    (hk : k ∉ s.map Prod.fst) : lookupField s k = none := by
  induction s with
  | nil => rfl
  | cons kv rest ih =>
    rcases kv with ⟨k0, v0⟩
    rw [List.map_cons] at hk
    simp only [List.mem_cons, not_or] at hk
    rw [lookupField, if_neg (fun hke => hk.1 hke.symm)]
    exact ih hk.2

theorem mergeFields_cons (t : Obj) (k : String) (v : JVal) (s : Obj) :
    mergeFields t ((k, v) :: s) = mergeFields (setField t k v) s := rfl

theorem lookupField_mergeFields_not_mem (t s : Obj) (k : String)
    (hk : k ∉ s.map Prod.fst) :
    lookupField (mergeFields t s) k = lookupField t k := by
  induction s generalizing t with
  | nil => rfl
  | cons kv s' ih =>
    rcases kv with ⟨k0, v0⟩
    rw [List.map_cons] at hk
    simp only [List.mem_cons, not_or] at hk
    rw [mergeFields_cons, ih _ hk.2]
    exact lookupField_setField_other t k0 k v0 (fun hke => hk.1 hke.symm)

theorem lookupField_mergeFields (t s : Obj) (k : String)
    (hnodup : (s.map Prod.fst).Nodup) :
    lookupField (mergeFields t s) k =
      (match lookupField s k with
       | some w => some w
       | none => lookupField t k) := by
  induction s generalizing t with
  | nil => rfl
  | cons kv s' ih =>
    rcases kv with ⟨k0, v0⟩
    rw [List.map_cons, List.nodup_cons] at hnodup
    obtain ⟨hk0, hnd⟩ := hnodup
    rw [mergeFields_cons]
    by_cases hkk : k0 = k
    · subst hkk
      rw [ih (setField t k0 v0) hnd,
        lookupField_eq_none s' k0 hk0]
      simp only [lookupField, if_pos rfl]
      exact lookupField_setField_self t k0 v0
    · rw [ih (setField t k0 v0) hnd,
        lookupField_setField_other t k0 k v0 hkk]
      simp only [lookupField, if_neg hkk]

theorem alloc_get_isSome (h : Heap) (o : Obj) (b : Addr)
    (hb : (h.get b).isSome = true) : ((h.alloc o).1.get b).isSome = true := by
  by_cases hnb : h.next = b
  · simp [Heap.alloc, Heap.get, findObj, hnb]
  · simpa [Heap.alloc, Heap.get, findObj, hnb] using hb

theorem stageAddX_preserves : StagePreserves stageAddX := by
  intro h c h' out hs b hb
  simp only [stageAddX] at hs
  injection hs with hh _
  rw [← hh]
  exact alloc_get_isSome h _ b hb

/-! ## C2: default mode deep-duplicates the input and never mutates it -/

/-- C2: invoked in default (non-mutate) mode, the composed pipeline's
working context `c0` starts as a structure-preserving duplicate of the
input `ctx` (it denotes the same pure tree) built entirely at fresh
addresses (`h0.next ≤ b` for every address it reaches — a deep copy
sharing no object with the input), and over the whole run every
pre-existing object — in particular the whole object graph of the original
input context — is left untouched (`hF.get a = h0.get a` below the old
allocation bound), for stages that only touch state reachable from what
they are given. -/
theorem compose_default_isolates_input
    (fuel : Nat) (stages : List Stage) (h0 h1 hF : Heap) (ctx c0 : JVal)
    (res : Result JVal ErrVal) (g : Nat) (t : Tree) (b a : Addr)
    (hwf : h0.WFb = true)
    (hframe : ∀ s ∈ stages, StageFrame s)
    (hclone : cloneVal fuel h0 ctx = some (h1, c0))
    (hrun : compose stages ⟨false⟩ fuel h0 ctx = some (hF, res))
    (hview : viewVal g h0 ctx = some t)
    (hreach : ValReach h1 c0 b)
    (ha : a < h0.next) :
    viewVal g h1 c0 = some t ∧ h0.next ≤ b ∧ hF.get a = h0.get a := by
  have hrun' : composeLoop false stages h1 c0 = some (hF, res) := by
    simpa [compose, hclone] using hrun
  obtain ⟨hext, hwf', hreachcl, hviewcl⟩ := cloneVal_ok fuel h0 ctx h1 c0 hclone
  refine ⟨hviewcl hwf g t hview, (hreachcl hwf b hreach).1, ?_⟩
  have ha1 : a < h1.next := lt_of_lt_of_le ha hext.1
  have hnr : ¬ ValReach h1 c0 a := fun hr =>
    absurd ha (not_lt.mpr (hreachcl hwf a hr).1)
  rw [composeLoop_frame stages hframe h1 c0 hF res hrun' a ha1 hnr]
  exact hext.2 a ha

/-- Exercises C2 on a one-object heap with an empty stage list. -/
theorem compose_default_isolates_input_witness :
    viewVal 1 heap1 (.ref 1) = some (Tree.obj []) ∧
    heap0.next ≤ 1 ∧ heap1.get 0 = heap0.get 0 :=
  compose_default_isolates_input 1 [] heap0 heap1 heap1 ctx0 (.ref 1)
    (Result.ok (.ref 1)) 1 (Tree.obj []) 1 0 rfl
    (by intro s hs; cases hs) rfl rfl rfl (.here 1) (by decide)

/-! ## C3: the composed pipeline communicates all failure through Results -/

/-- C3: the composed pipeline neither throws nor rejects: in default mode,
once the documented deep-duplication step succeeds, the run always settles
to a returned `Result` (thrown stage errors included, via the loop's guarded
region); in mutate mode likewise, whenever the context is a live object
reference and stages do not deallocate.  Every failure travels through the
returned `Result`'s failure shape. -/
theorem compose_never_throws
    (fuel1 fuel2 : Nat) (stages1 : List Stage) (h1c hcl : Heap) (ctx1 w1 : JVal)
    (stages2 : List Stage) (h2c : Heap) (a : Addr)
    (hclone : cloneVal fuel1 h1c ctx1 = some (hcl, w1))
    (hpres : ∀ s ∈ stages2, StagePreserves s)
    (ha : (h2c.get a).isSome = true) :
    (compose stages1 ⟨false⟩ fuel1 h1c ctx1).isSome = true ∧
    (compose stages2 ⟨true⟩ fuel2 h2c (.ref a)).isSome = true := by
  constructor
  · have : compose stages1 ⟨false⟩ fuel1 h1c ctx1 = composeLoop false stages1 hcl w1 := by
      simp [compose, hclone]
    rw [this]
    exact composeLoop_false_total stages1 hcl w1
  · have : compose stages2 ⟨true⟩ fuel2 h2c (.ref a) =
        composeLoop true stages2 h2c (.ref a) := by
      simp [compose]
    rw [this]
    exact composeLoop_true_total stages2 hpres h2c a ha

/-- Exercises C3: a throwing stage in default mode and an allocating stage
in mutate mode both settle to a returned `Result`. -/
theorem compose_never_throws_witness :
    (compose [stageThrowBoom] ⟨false⟩ 1 heap0 ctx0).isSome = true ∧
    (compose [stageAddX] ⟨true⟩ 0 heap0 (.ref 0)).isSome = true :=
  compose_never_throws 1 0 [stageThrowBoom] heap0 heap1 ctx0 (.ref 1)
    [stageAddX] heap0 0 rfl
    (by
      intro s hs
      rcases List.mem_singleton.mp hs with rfl
      exact stageAddX_preserves)
    rfl

/-! ## C6: mutate mode merges in place and returns the input reference -/

/-- C6: under `mutate: true`, the loop's context reference never changes, so
an all-success run embeds in its final success `Result` exactly the caller's
input context value (`v = ctx`, reference identity in the heap model); each
successful stage's returned value is shallow-merged into the object at the
context's own address (`Object.assign` updates that address in place to the
merged field list); and the merge has overwrite-or-preserve semantics: a key
of the source wins, a key absent from the source keeps the target's value. -/
theorem compose_mutate_merges_in_place
    (fuel : Nat) (stages : List Stage) (h hF : Heap) (ctx v : JVal)
    (h2 h2' : Heap) (a : Addr) (o : Obj) (src : JVal)
    (t s : Obj) (k : String)
    (hrun : compose stages ⟨true⟩ fuel h ctx = some (hF, Result.ok v))
    (hget : h2.get a = some o)
    (hassign : objAssign h2 (.ref a) src = some h2')
    (hnodup : (s.map Prod.fst).Nodup) :
    v = ctx ∧
    h2'.get a = some (mergeFields o (sourceFields h2 src)) ∧
    lookupField (mergeFields t s) k =
      (match lookupField s k with
       | some w => some w
       | none => lookupField t k) := by
  refine ⟨?_, ?_, lookupField_mergeFields t s k hnodup⟩
  · have hrun' : composeLoop true stages h ctx = some (hF, Result.ok v) := by
      simpa [compose] using hrun
    exact composeLoop_mutate_fixed stages h hF ctx v hrun'
  · rw [objAssign_spec h2 a o src hget] at hassign
    injection hassign with hassign
    rw [← hassign]
    exact Heap.get_set_self _ hget

/-- Exercises C6: one succeeding stage under mutate mode returns the input
reference and merges `{x: "1"}` into the caller's object in place. -/
theorem compose_mutate_merges_in_place_witness :
    ctx0 = ctx0 ∧
    heap2x.get 0 = some (mergeFields [] (sourceFields heap1x (.ref 1))) ∧
    lookupField (mergeFields [("x", JVal.prim "0"), ("y", JVal.prim "2")]
        [("x", JVal.prim "1")]) "x" =
      (match lookupField [("x", JVal.prim "1")] "x" with
       | some w => some w
       | none => lookupField [("x", JVal.prim "0"), ("y", JVal.prim "2")] "x") :=
  compose_mutate_merges_in_place 0 [stageAddX] heap0 heap2x ctx0 ctx0
    heap1x heap2x 0 [] (.ref 1)
    [("x", JVal.prim "0"), ("y", JVal.prim "2")] [("x", JVal.prim "1")] "x"
    rfl rfl rfl (by simp)

/-! ## C9: mutate mode performs no rollback on failure -/

/-- C9: under `mutate: true`, after a first stage succeeds and its value is
merged into the caller's context object, a second stage failing (returning a
failure `Result`, or throwing) makes the pipeline return that failure with
the heap exactly as the failing stage left it — the engine writes nothing
further, so the keys merged by the earlier success are still present in the
caller's object even though the overall result is a failure. -/
theorem compose_mutate_no_rollback
    (fuel : Nat) (s1 s2 s2' : Stage) (h h1 h1' h2 h2' : Heap) (a : Addr)
    (v1 : JVal) (e e' : ErrVal) (k : String) (w : JVal)
    (hs1 : s1 h (.ref a) = (h1, StageOut.ret (Result.ok v1)))
    (hassign : objAssign h1 (.ref a) v1 = some h1')
    (hs2 : s2 h1' (.ref a) = (h2, StageOut.ret (Result.err e)))
    (hs2' : s2' h1' (.ref a) = (h2', StageOut.threw e'))
    (hpres : h2.get a = h1'.get a)
    (hnodup : ((sourceFields h1 v1).map Prod.fst).Nodup)
    (hk : lookupField (sourceFields h1 v1) k = some w) :
    compose [s1, s2] ⟨true⟩ fuel h (.ref a) = some (h2, Result.err e) ∧
    compose [s1, s2'] ⟨true⟩ fuel h (.ref a) = some (h2', failure e') ∧
    ∃ o', h2.get a = some o' ∧ lookupField o' k = some w := by
  have ho : ∃ o, h1.get a = some o := by
    rcases hga : h1.get a with _ | o
    · rw [objAssign, hga] at hassign
      cases hassign
    · exact ⟨o, rfl⟩
  obtain ⟨o, hga⟩ := ho
  refine ⟨?_, ?_, ?_⟩
  · have : compose [s1, s2] ⟨true⟩ fuel h (.ref a) =
        composeLoop true [s2] h1' (.ref a) := by
      simp only [compose]
      exact composeLoop_cons_ok_true s1 [s2] h h1 h1' (.ref a) v1 hs1 hassign
    rw [this]
    exact composeLoop_cons_err true s2 [] h1' h2 (.ref a) e hs2
  · have : compose [s1, s2'] ⟨true⟩ fuel h (.ref a) =
        composeLoop true [s2'] h1' (.ref a) := by
      simp only [compose]
      exact composeLoop_cons_ok_true s1 [s2'] h h1 h1' (.ref a) v1 hs1 hassign
    rw [this]
    exact composeLoop_cons_threw true s2' [] h1' h2' (.ref a) e' hs2'
  · rw [objAssign_spec h1 a o v1 hga] at hassign
    injection hassign with hassign
    refine ⟨mergeFields o (sourceFields h1 v1), ?_, ?_⟩
    · rw [hpres, ← hassign]
      exact Heap.get_set_self _ hga
    · rw [lookupField_mergeFields _ _ _ hnodup, hk]

/-- Exercises C9: stage one merges `{x: "1"}` into the caller's object, then
stage two fails (or throws); the failure is returned and the merged key is
still present. -/
theorem compose_mutate_no_rollback_witness :
    compose [stageAddX, stageFailE] ⟨true⟩ 0 heap0 (.ref 0) =
      some (heap2x, Result.err (.raw "E")) ∧
    compose [stageAddX, stageThrowBoom] ⟨true⟩ 0 heap0 (.ref 0) =
      some (heap2x, failure (.std "boom")) ∧
    ∃ o', heap2x.get 0 = some o' ∧ lookupField o' "x" = some (JVal.prim "1") :=
  compose_mutate_no_rollback 0 stageAddX stageFailE stageThrowBoom
    heap0 heap1x heap2x heap2x heap2x 0 (.ref 1) (.raw "E") (.std "boom")
    "x" (JVal.prim "1") rfl rfl rfl rfl rfl (by decide) rfl

/-! ## C8: composing an empty stage list -/

/-- C8: the pipeline composed from an empty stage list returns, for every
initial context, a success `Result` wrapping the initial context unchanged:
the exact input reference in mutate mode (same value, untouched heap), and
the cloned working copy — denoting the same pure tree as the input — in
default mode.  No stage exists to be invoked. -/
theorem compose_empty_success
    (fuel : Nat) (h h1 : Heap) (ctx c1 : JVal) (g : Nat) (t : Tree)
    (hwf : h.WFb = true)
    (hclone : cloneVal fuel h ctx = some (h1, c1))
    (hview : viewVal g h ctx = some t) :
    compose [] ⟨true⟩ fuel h ctx = some (h, Result.ok ctx) ∧
    compose [] ⟨false⟩ fuel h ctx = some (h1, Result.ok c1) ∧
    viewVal g h1 c1 = some t := by
  obtain ⟨_, _, _, hviewcl⟩ := cloneVal_ok fuel h ctx h1 c1 hclone
  refine ⟨rfl, ?_, hviewcl hwf g t hview⟩
  simp [compose, hclone, composeLoop, success]

/-- Exercises C8 on a one-object heap. -/
theorem compose_empty_success_witness :
    compose [] ⟨true⟩ 1 heap0 ctx0 = some (heap0, Result.ok ctx0) ∧
    compose [] ⟨false⟩ 1 heap0 ctx0 = some (heap1, Result.ok (.ref 1)) ∧
    viewVal 1 heap1 (.ref 1) = some (Tree.obj []) :=
  compose_empty_success 1 heap0 heap1 ctx0 (.ref 1) 1 (Tree.obj []) rfl rfl rfl

end Pipeline
